import Mathlib

/-! Shallow embedding of the temporal aggregation logic of the reflex2 habit
tracking app: day and streak computations, day bucketing, frequency ranking,
the calendar grid builder, and the clamping done when a log row is persisted.

Timestamps are modelled as integers (milliseconds since the epoch) and local
calendar days as integer day indices. The device dependent conversions of the
JavaScript Date API appear as explicit function parameters: dayOf sends a
timestamp to the local calendar day containing it, midnight sends a day index
to the timestamp of its local midnight (the value of new Date(y, m, d)), and
sod models startOfDayMs. Day key strings are injective in the source, so a
day key is identified with its day index where only identity matters; where
the key strings are used as map keys they are kept as an abstract key type. -/

/-- Model of the JavaScript string trim operation: remove leading and trailing
whitespace characters. -/
def trimStr (s : String) : String :=
  String.mk (((s.data.dropWhile Char.isWhitespace).reverse.dropWhile Char.isWhitespace).reverse)

/-- A log record as loaded from the database (LogEntry in DataContext).
didResist is stored as an SQLite integer; the TypeScript type limits it to
0 or 1. -/
structure LogEntry where
  id : ℤ
  habitId : ℤ
  habitName : String
  cueId : Option ℤ
  cueName : Option String
  locationId : Option ℤ
  locationName : Option String
  intensity : Option ℤ
  count : ℤ
  didResist : ℤ
  notes : Option String
  createdAt : ℤ
  deriving DecidableEq

/-- JavaScript Map.get modelled on an insertion ordered association list. -/
def mapGet {κ : Type} [DecidableEq κ] (m : List (κ × ℕ)) (k : κ) : Option ℕ :=
  (m.find? (fun p => decide (p.1 = k))).map (fun p => p.2)

/-- JavaScript Map.set: update the value in place when the key is present,
append a fresh entry at the end otherwise. -/
def mapSet {κ : Type} [DecidableEq κ] : List (κ × ℕ) → κ → ℕ → List (κ × ℕ)
  | [], k, v => [(k, v)]
  | p :: rest, k, v => if p.1 = k then (k, v) :: rest else p :: mapSet rest k v

/-- The increment step m.set(k, (m.get(k) ?? 0) + 1) used by every count scan. -/
def bumpCount {κ : Type} [DecidableEq κ] (m : List (κ × ℕ)) (k : κ) : List (κ × ℕ) :=
  mapSet m k ((mapGet m k).getD 0 + 1)

/-- AnalyticsScreen filteredLogs: the Overall tab returns the logs unchanged,
any other tab keeps the records whose trimmed habitName equals the tab. -/
def filteredLogs (logs : List LogEntry) (activeTab : String) : List LogEntry :=
  if activeTab = "Overall" then logs
  else logs.filter (fun l => decide (trimStr l.habitName = activeTab))

/-- HomeScreen logsForStats: a null selected habit returns the logs unchanged,
otherwise the records whose habitName equals the selection verbatim are kept. -/
def logsForStats (logs : List LogEntry) (selectedHabit : Option String) : List LogEntry :=
  match selectedHabit with
  | none => logs
  | some h => logs.filter (fun l => decide (l.habitName = h))

/-- AnalyticsScreen giveInCounts: bucket the gave in records of the shown month
by day key, skipping records outside the month window and resisted records. -/
def giveInCounts {κ : Type} [DecidableEq κ] (keyOf : ℤ → κ) (monthStart monthEnd : ℤ)
    (logs : List LogEntry) : List (κ × ℕ) :=
  logs.foldl
    (fun m l =>
      if l.createdAt < monthStart ∨ monthEnd ≤ l.createdAt then m
      else if l.didResist = 1 then m
      else bumpCount m (keyOf l.createdAt))
    []

/-- The scan building the occurrence count map of one trimmed field over the
records, as done for cue, location and habit counts in AnalyticsScreen. -/
def fieldCounts (field : LogEntry → Option String) (logs : List LogEntry) :
    List (String × ℕ) :=
  logs.foldl
    (fun m l =>
      let v := trimStr ((field l).getD "")
      if v = "" then m else bumpCount m v)
    []

/-- Stable insertion of an entry into a count descending list: the entry goes
after every entry with a greater or equal count. -/
def insertByCountDesc (p : String × ℕ) : List (String × ℕ) → List (String × ℕ)
  | [] => [p]
  | q :: rest => if q.2 < p.2 then p :: q :: rest else q :: insertByCountDesc p rest

/-- Stable sort by count descending, modelling Array sort with the comparator
(a, b) => b.count - a.count; that sort is stable per the ECMAScript standard,
and a stable sort is determined by its comparator, so any stable descending
sort computes this list. -/
def sortByCountDesc (m : List (String × ℕ)) : List (String × ℕ) :=
  m.foldl (fun acc p => insertByCountDesc p acc) []

/-- AnalyticsScreen topN: sort the map entries by count descending and keep the
first three (the source hardcodes the slice bound 3). -/
def topN (m : List (String × ℕ)) : List (String × ℕ) :=
  (sortByCountDesc m).take 3

/-- One backward step per fuel unit of the current streak while loop. -/
def streakAux (S : Finset ℤ) : ℤ → ℕ → ℕ
  | _, 0 => 0
  | cursor, fuel + 1 => if cursor ∈ S then 1 + streakAux S (cursor - 1) fuel else 0

/-- HomeScreen current streak: walk backward from today while each visited day
is in the qualifying set. The loop visits pairwise distinct days, so it stops
within card S + 1 iterations; the fuel makes that pigeonhole bound explicit. -/
def currentStreak (S : Finset ℤ) (today : ℤ) : ℕ :=
  streakAux S today (S.card + 1)

/-- Loop body of the HomeScreen best streak scan: extend the run when the gap
to the previous timestamp is exactly 86400000 ms, reset it to 1 otherwise, and
track the best run seen. -/
def bestStreakGo : List ℤ → ℤ → ℕ → ℕ → ℕ
  | [], _, _, best => best
  | d :: rest, prev, run, best =>
    let r := if d - prev = 86400000 then run + 1 else 1
    bestStreakGo rest d r (max best r)

/-- HomeScreen best streak over the ascending list of unique qualifying day
timestamps; the first iteration sets the run to 1. -/
def bestStreak : List ℤ → ℕ
  | [] => 0
  | d :: rest => bestStreakGo rest d 1 (max 0 1)

/-- HomeScreen resistDays: the set of local calendar days holding at least one
record with didResist equal to 1, built by the scan over the logs. -/
def resistDaysOf (dayOf : ℤ → ℤ) (logs : List LogEntry) : Finset ℤ :=
  logs.foldl (fun s l => if l.didResist = 1 then insert (dayOf l.createdAt) s else s) ∅

/-- HomeScreen resistDates: the unique qualifying days converted back to local
midnight timestamps and sorted ascending. -/
def resistDates (dayOf midnight : ℤ → ℤ) (logs : List LogEntry) : List ℤ :=
  ((resistDaysOf dayOf logs).image midnight).sort (· ≤ ·)

/-- Length of the run continuing from prev: counts while each successive gap is
exactly 86400000 ms. -/
def contRun (prev : ℤ) : List ℤ → ℕ
  | [] => 0
  | d :: rest => if d - prev = 86400000 then 1 + contRun d rest else 0

/-- Specification reading of the best streak: the maximum, over all start
positions of the sorted timestamp list, of the length of the run starting
there, a run being a stretch whose consecutive gaps are exactly 86400000 ms;
the empty list gives 0. -/
def bestSpec : List ℤ → ℕ
  | [] => 0
  | d :: rest => max (1 + contRun d rest) (bestSpec rest)

/-- Specification reading of first encountered order: deduplicate a value list
keeping the first occurrence of each value, in scan order. -/
def firstSeen (l : List String) : List String :=
  l.foldl (fun acc x => if x ∈ acc then acc else acc ++ [x]) []

/-- The trimmed nonempty values of one field, in record order. -/
def qualVals (field : LogEntry → Option String) (logs : List LogEntry) : List String :=
  (logs.map (fun l => trimStr ((field l).getD ""))).filter (fun v => decide (v ≠ ""))

/-- The list a, a + 1, ..., a + n - 1 of consecutive integers. -/
def ascRun (a : ℤ) : ℕ → List ℤ
  | 0 => []
  | n + 1 => a :: ascRun (a + 1) n

/-- A calendar grid cell (AnalyticsScreen CalendarCell). -/
structure CalendarCell (κ : Type) where
  key : κ
  label : String
  count : Option ℕ
  isToday : Bool
  dayStartMs : Option ℤ
  isInactive : Bool
  deriving DecidableEq

/-- The minimum createdAt over the records, as the installDayStartMs loop
computes it. -/
def minCreatedAt (l0 : LogEntry) (rest : List LogEntry) : ℤ :=
  rest.foldl (fun m l => if l.createdAt < m then l.createdAt else m) l0.createdAt

/-- AnalyticsScreen installDayStartMs: the start of day of the earliest record,
or the start of today when there are no records yet. -/
def installDayStartMs (sod : ℤ → ℤ) (todayStartMs : ℤ) : List LogEntry → ℤ
  | [] => todayStartMs
  | l :: rest => sod (minCreatedAt l rest)

/-- A blank (padding) cell of the grid. -/
def blankCell {κ : Type} (k : κ) : CalendarCell κ :=
  { key := k, label := "", count := none, isToday := false,
    dayStartMs := none, isInactive := true }

/-- One numbered day cell of the grid, for day number d of the shown month. -/
def dayCell {κ : Type} [DecidableEq κ] (keyOf : ℤ → κ) (sod : ℤ → ℤ) (dayMs : ℕ → ℤ)
    (todayStartMs installMs : ℤ) (hasAnyLogs : Bool) (counts : List (κ × ℕ)) (d : ℕ) :
    CalendarCell κ :=
  let dayStart := sod (dayMs d)
  let k := keyOf dayStart
  let isToday := decide (k = keyOf todayStartMs)
  let isFuture := decide (todayStartMs < dayStart)
  let isBeforeInstall := decide (dayStart < installMs)
  let treatToday := !hasAnyLogs && isToday
  { key := k
    label := toString d
    count := some ((mapGet counts k).getD 0)
    isToday := isToday
    dayStartMs := some dayStart
    isInactive := isFuture || (isBeforeInstall && !treatToday) }

/-- The trailing pad loop: add blank cells until the length is a multiple
of 7. Each pass adds one cell and at most six are ever needed, so fuel 7
suffices; the sufficiency is proved below. -/
def padCellsAux {κ : Type} (blankEndKey : ℕ → κ) :
    ℕ → List (CalendarCell κ) → List (CalendarCell κ)
  | 0, cells => cells
  | fuel + 1, cells =>
    if cells.length % 7 = 0 then cells
    else padCellsAux blankEndKey fuel (cells ++ [blankCell (blankEndKey cells.length)])

/-- AnalyticsScreen calendar cells: leading blanks up to the Monday based
weekday index of the first of the month, one numbered cell per month day, then
trailing blanks until the count is a multiple of 7. -/
def buildCalendar {κ : Type} [DecidableEq κ] (blankKey blankEndKey : ℕ → κ) (keyOf : ℤ → κ)
    (sod : ℤ → ℤ) (dayMs : ℕ → ℤ) (mondayIndex daysInMonth : ℕ)
    (todayStartMs installMs : ℤ) (hasAnyLogs : Bool) (counts : List (κ × ℕ)) :
    List (CalendarCell κ) :=
  let leading := (List.range mondayIndex).map (fun i => blankCell (blankKey i))
  let days := (List.range daysInMonth).map
    (fun i => dayCell keyOf sod dayMs todayStartMs installMs hasAnyLogs counts (i + 1))
  padCellsAux blankEndKey 7 (leading ++ days)

/-- Caller supplied input of addLog; numeric fields are arbitrary rationals,
modelling arbitrary finite JavaScript numbers, and optional fields may be
absent. -/
structure AddLogInput where
  habitId : ℤ
  cueId : Option ℤ
  locationId : Option ℤ
  intensity : Option ℚ
  count : Option ℚ
  didResist : Option Bool
  notes : Option String

/-- The numeric fields of the row inserted by DataProvider addLog. -/
structure StoredLog where
  intensity : Option ℤ
  count : ℤ
  didResist : ℤ
  deriving DecidableEq

/-- DataProvider addLog: intensity is rounded then clamped to 1..10 when
present, count defaults to 1 and is rounded then clamped to 0..10, didResist
is stored as 1 or 0. Math.round x is the floor of x + 1/2, which is the
Mathlib round function on rationals. -/
def addLogRow (input : AddLogInput) : StoredLog :=
  let intensity : Option ℤ :=
    match input.intensity with
    | none => none
    | some x => some (min 10 (max 1 (round x)))
  let countIn : ℚ := input.count.getD 1
  let cnt : ℤ := min 10 (max 0 (round countIn))
  let resist : ℤ := if input.didResist.getD false then 1 else 0
  { intensity := intensity, count := cnt, didResist := resist }

/-- The sum of all values of a count map: the total of the per day bucket
counts. -/
def sumVals {κ : Type} (m : List (κ × ℕ)) : ℕ :=
  (m.map (fun p => p.2)).sum

/-- A civil time conversion with a spring forward transition between day 1 and
day 2: the local midnight of every day from day 2 on comes one hour early in
absolute time, as under daylight saving time. This is a concrete value of the
device dependent conversion performed by new Date(y, m, d) in the source. -/
def dstMidnight (d : ℤ) : ℤ :=
  if d ≤ 1 then 86400000 * d else 86400000 * d - 3600000

/-- A fixed offset civil time conversion: consecutive local midnights are
always exactly 86400000 ms apart. -/
def fixedMidnight (d : ℤ) : ℤ :=
  86400000 * d

/-- A sample record that resisted, on day 0 (concrete witness data). -/
def sampleResist : LogEntry :=
  { id := 1, habitId := 1, habitName := "A", cueId := none, cueName := some "cue",
    locationId := none, locationName := none, intensity := some 5, count := 0,
    didResist := 1, notes := none, createdAt := 5 }

/-- A sample record that gave in (concrete witness data). -/
def sampleGiveIn : LogEntry :=
  { id := 2, habitId := 1, habitName := "B", cueId := none, cueName := none,
    locationId := none, locationName := none, intensity := none, count := 2,
    didResist := 0, notes := none, createdAt := 7 }

/-- A sample record whose habit name carries surrounding whitespace (concrete
counterexample data for the habit filter claim). -/
def samplePadded : LogEntry :=
  { id := 3, habitId := 1, habitName := " A ", cueId := none, cueName := none,
    locationId := none, locationName := none, intensity := none, count := 1,
    didResist := 0, notes := none, createdAt := 9 }

/-- A resisted record on day 0, with the identity day conversion (concrete
streak data). -/
def sampleDay0 : LogEntry :=
  { id := 4, habitId := 1, habitName := "A", cueId := none, cueName := none,
    locationId := none, locationName := none, intensity := none, count := 0,
    didResist := 1, notes := none, createdAt := 0 }

/-- A resisted record on day 1 (concrete streak data). -/
def sampleDay1 : LogEntry :=
  { id := 5, habitId := 1, habitName := "A", cueId := none, cueName := none,
    locationId := none, locationName := none, intensity := none, count := 0,
    didResist := 1, notes := none, createdAt := 1 }

/-- A resisted record on day 2 (concrete streak data). -/
def sampleDay2 : LogEntry :=
  { id := 6, habitId := 1, habitName := "A", cueId := none, cueName := none,
    locationId := none, locationName := none, intensity := none, count := 0,
    didResist := 1, notes := none, createdAt := 2 }

/-! Streak calculator: the while loop semantics. -/

theorem streakAux_eq (S : Finset ℤ) :
    ∀ fuel n : ℕ, ∀ cursor : ℤ, n < fuel → (∀ k : ℕ, k < n → cursor - k ∈ S) →
      cursor - (n : ℤ) ∉ S → streakAux S cursor fuel = n := by
  intro fuel
  induction fuel with
  | zero => intro n cursor h; omega
  | succ fuel ih =>
    intro n cursor hlt hmem hstop
    match n with
    | 0 =>
      have h0 : cursor ∉ S := by simpa using hstop
      simp [streakAux, h0]
    | n + 1 =>
      have h0 : cursor ∈ S := by simpa using hmem 0 (by omega)
      have hrec : streakAux S (cursor - 1) fuel = n := by
        apply ih n (cursor - 1) (by omega)
        · intro k hk
          have := hmem (k + 1) (by omega)
          have hcast : cursor - 1 - (k : ℤ) = cursor - ((k : ℕ) + 1 : ℕ) := by
            push_cast; ring
          rw [hcast]
          exact_mod_cast this
        · have hcast : cursor - 1 - (n : ℤ) = cursor - ((n : ℕ) + 1 : ℕ) := by
            push_cast; ring
          rw [hcast]
          exact_mod_cast hstop
      simp [streakAux, h0, hrec]
      omega

theorem run_le_card (S : Finset ℤ) (today : ℤ) {n : ℕ}
    (hmem : ∀ k : ℕ, k < n → today - k ∈ S) : n ≤ S.card := by
  have hinj : Function.Injective fun k : ℕ => today - (k : ℤ) := by
    intro a c h
    simp only at h
    omega
  have hsub : (Finset.range n).image (fun k : ℕ => today - (k : ℤ)) ⊆ S := by
    intro x hx
    obtain ⟨k, hk, rfl⟩ := Finset.mem_image.mp hx
    exact hmem k (Finset.mem_range.mp hk)
  calc n = ((Finset.range n).image (fun k : ℕ => today - (k : ℤ))).card := by
            rw [Finset.card_image_of_injective _ hinj, Finset.card_range]
    _ ≤ S.card := Finset.card_le_card hsub

theorem exists_stop (S : Finset ℤ) (today : ℤ) :
    ∃ n : ℕ, (∀ k : ℕ, k < n → today - k ∈ S) ∧ today - (n : ℤ) ∉ S := by
  have hex : ∃ k : ℕ, today - (k : ℤ) ∉ S := by
    by_contra h
    push_neg at h
    have := run_le_card S today (n := S.card + 1) (fun k _ => h k)
    omega
  refine ⟨Nat.find hex, ?_, Nat.find_spec hex⟩
  intro k hk
  have := Nat.find_min hex hk
  exact not_not.mp this

theorem currentStreak_eq (S : Finset ℤ) (today : ℤ) {n : ℕ}
    (hmem : ∀ k : ℕ, k < n → today - k ∈ S) (hstop : today - (n : ℤ) ∉ S) :
    currentStreak S today = n := by
  have hb : n ≤ S.card := run_le_card S today hmem
  exact streakAux_eq S (S.card + 1) n today (by omega) hmem hstop

/-- Claim C1: the current streak computed by walking backward from today equals
the length of the maximal run of consecutive calendar days ending at today that
all belong to the qualifying day set: every day strictly within the streak
qualifies, the day right below the run does not, no longer run ending at today
lies inside the set, and the streak is 0 exactly when today does not qualify. -/
theorem claim_C1_currentStreak (S : Finset ℤ) (today : ℤ) :
    (∀ k : ℕ, k < currentStreak S today → today - k ∈ S)
    ∧ today - (currentStreak S today : ℤ) ∉ S
    ∧ (∀ n : ℕ, (∀ k : ℕ, k < n → today - k ∈ S) → n ≤ currentStreak S today)
    ∧ (currentStreak S today = 0 ↔ today ∉ S) := by
  obtain ⟨n, hmem, hstop⟩ := exists_stop S today
  have he : currentStreak S today = n := currentStreak_eq S today hmem hstop
  rw [he]
  refine ⟨hmem, hstop, ?_, ?_⟩
  · intro m hm
    by_contra hc
    exact hstop (hm n (by omega))
  · constructor
    · intro h0
      have := hstop
      rw [h0] at this
      simpa using this
    · intro ht
      by_contra h0
      exact ht (by simpa using hmem 0 (by omega))

theorem claim_C1_currentStreak_witness :
    (2 : ℤ) - ((1 : ℕ) : ℤ) ∈ ({0, 1, 2} : Finset ℤ)
    ∧ 3 ≤ currentStreak ({0, 1, 2} : Finset ℤ) 2 := by
  refine ⟨(claim_C1_currentStreak ({0, 1, 2} : Finset ℤ) 2).1 1 ?_,
    (claim_C1_currentStreak ({0, 1, 2} : Finset ℤ) 2).2.2.1 3 ?_⟩
  · decide
  · decide

/-- Claim C10: every row persisted by addLog has count an integer clamped to
0..10 after rounding, intensity either absent or an integer clamped to 1..10
after rounding, and didResist stored as 0 or 1, whatever numbers the caller
supplied. -/
theorem claim_C10_addLog_clamps (input : AddLogInput) :
    (0 ≤ (addLogRow input).count ∧ (addLogRow input).count ≤ 10)
    ∧ ((addLogRow input).intensity = none ∨
        ∃ i : ℤ, (addLogRow input).intensity = some i ∧ 1 ≤ i ∧ i ≤ 10)
    ∧ ((addLogRow input).didResist = 0 ∨ (addLogRow input).didResist = 1) := by
  unfold addLogRow
  refine ⟨⟨?_, ?_⟩, ?_, ?_⟩
  · simp only
    omega
  · simp only
    omega
  · match h : input.intensity with
    | none => left; simp [h]
    | some x =>
      right
      refine ⟨min 10 (max 1 (round x)), by simp [h], by omega, by omega⟩
  · simp only
    rcases input.didResist.getD false with _ | _ <;> simp

/-! Best streak: the imperative scan equals the maximum run length. -/

theorem bestStreakGo_eq (l : List ℤ) :
    ∀ (prev : ℤ) (run best : ℕ), 1 ≤ run → run ≤ best →
      bestStreakGo l prev run best = max best (max (run + contRun prev l) (bestSpec l)) := by
  induction l with
  | nil =>
    intro prev run best h1 h2
    simp only [bestStreakGo, contRun, bestSpec]
    omega
  | cons d rest ih =>
    intro prev run best h1 h2
    by_cases hgap : d - prev = 86400000
    · simp only [bestStreakGo, contRun, bestSpec, hgap, if_pos]
      rw [ih d (run + 1) (max best (run + 1)) (by omega) (by omega)]
      omega
    · simp only [bestStreakGo, contRun, bestSpec, hgap, if_neg, ite_false]
      rw [ih d 1 (max best 1) (by omega) (by omega)]
      have hc : 0 ≤ contRun d rest := Nat.zero_le _
      omega

theorem bestStreak_eq_bestSpec (l : List ℤ) : bestStreak l = bestSpec l := by
  cases l with
  | nil => rfl
  | cons d rest =>
    simp only [bestStreak, bestSpec]
    rw [bestStreakGo_eq rest d 1 (max 0 1) (by omega) (by omega)]
    have hc : 0 ≤ contRun d rest := Nat.zero_le _
    omega

/-- Claim C2: the best streak computed by the scan over the sorted unique
qualifying day midnights equals the maximum run length over that list, where a
run extends exactly when the gap between consecutive sorted timestamps is
86400000 ms and resets to length 1 otherwise, and the result is 0 when there
are no qualifying days. -/
theorem claim_C2_bestStreak (dayOf midnight : ℤ → ℤ) (logs : List LogEntry) :
    bestStreak (resistDates dayOf midnight logs) = bestSpec (resistDates dayOf midnight logs)
    ∧ (resistDaysOf dayOf logs = ∅ → bestStreak (resistDates dayOf midnight logs) = 0) := by
  refine ⟨bestStreak_eq_bestSpec _, ?_⟩
  intro h
  simp [resistDates, h, bestStreak]

theorem claim_C2_bestStreak_witness :
    bestStreak (resistDates (fun t => t) (fun d => d) []) = 0 :=
  (claim_C2_bestStreak (fun t => t) (fun d => d) []).2 rfl

/-! Day bucketing: the bucket counts sum to the number of qualifying records. -/

theorem sumVals_bumpCount {κ : Type} [DecidableEq κ] (m : List (κ × ℕ)) (k : κ) :
    sumVals (bumpCount m k) = sumVals m + 1 := by
  induction m with
  | nil => simp [bumpCount, mapGet, mapSet, sumVals]
  | cons p rest ih =>
    obtain ⟨k1, v1⟩ := p
    by_cases hk : k1 = k
    · have hfind : List.find? (fun q => decide (q.1 = k)) ((k1, v1) :: rest) = some (k1, v1) :=
        List.find?_cons_of_pos _ (by simp [hk])
      simp [bumpCount, mapGet, mapSet, sumVals, hfind, hk]
      omega
    · have hfind : List.find? (fun q => decide (q.1 = k)) ((k1, v1) :: rest) =
          List.find? (fun q => decide (q.1 = k)) rest :=
        List.find?_cons_of_neg _ (by simp [hk])
      simp only [bumpCount, mapGet, hfind]
      simp only [mapSet, if_neg (show ¬((k1, v1).1 = k) from by simpa using hk)]
      simp only [sumVals, List.map_cons, List.sum_cons]
      have hih := ih
      simp only [bumpCount, mapGet, sumVals] at hih
      omega

theorem giveInCounts_sum_aux {κ : Type} [DecidableEq κ] (keyOf : ℤ → κ) (ms me : ℤ) :
    ∀ (logs : List LogEntry) (m : List (κ × ℕ)),
      sumVals (logs.foldl
        (fun m l =>
          if l.createdAt < ms ∨ me ≤ l.createdAt then m
          else if l.didResist = 1 then m
          else bumpCount m (keyOf l.createdAt)) m) =
        sumVals m +
          (logs.filter
            (fun l => decide (ms ≤ l.createdAt ∧ l.createdAt < me ∧ l.didResist ≠ 1))).length := by
  intro logs
  induction logs with
  | nil => intro m; simp
  | cons l rest ih =>
    intro m
    by_cases hwin : l.createdAt < ms ∨ me ≤ l.createdAt
    · have hq : ¬(ms ≤ l.createdAt ∧ l.createdAt < me ∧ l.didResist ≠ 1) := by
        intro hq; omega
      simp only [List.foldl_cons, if_pos hwin, List.filter_cons]
      rw [ih m]
      simp [hq]
    · by_cases hres : l.didResist = 1
      · have hq : ¬(ms ≤ l.createdAt ∧ l.createdAt < me ∧ l.didResist ≠ 1) := by
          intro hq; omega
        simp only [List.foldl_cons, if_neg hwin, if_pos hres, List.filter_cons]
        rw [ih m]
        simp [hq]
      · have hq : ms ≤ l.createdAt ∧ l.createdAt < me ∧ l.didResist ≠ 1 := by
          constructor
          · omega
          · constructor
            · omega
            · exact hres
        simp only [List.foldl_cons, if_neg hwin, if_neg hres, List.filter_cons]
        rw [ih (bumpCount m (keyOf l.createdAt)), sumVals_bumpCount]
        simp [hq]
        omega

theorem mem_filteredLogs {l : LogEntry} {logs : List LogEntry} {tab : String}
    (h : l ∈ filteredLogs logs tab) : l ∈ logs := by
  unfold filteredLogs at h
  split at h
  · exact h
  · exact (List.mem_filter.mp h).1

/-- Claim C3: for every record list, habit filter and month window, the bucket
counts produced by the give in day bucketing sum to the number of filtered
records inside the window with didResist false, so no record is double counted
or dropped, and an empty input yields an empty mapping. -/
theorem claim_C3_giveInCounts {κ : Type} [DecidableEq κ] (keyOf : ℤ → κ) (ms me : ℤ)
    (logs : List LogEntry) (tab : String)
    (h01 : ∀ l ∈ logs, l.didResist = 0 ∨ l.didResist = 1) :
    sumVals (giveInCounts keyOf ms me (filteredLogs logs tab)) =
      ((filteredLogs logs tab).filter
        (fun l => decide (ms ≤ l.createdAt ∧ l.createdAt < me ∧ l.didResist = 0))).length
    ∧ giveInCounts keyOf ms me ([] : List LogEntry) = [] := by
  refine ⟨?_, rfl⟩
  rw [giveInCounts, giveInCounts_sum_aux keyOf ms me (filteredLogs logs tab) []]
  have hcong :
      (filteredLogs logs tab).filter
          (fun l => decide (ms ≤ l.createdAt ∧ l.createdAt < me ∧ l.didResist ≠ 1)) =
        (filteredLogs logs tab).filter
          (fun l => decide (ms ≤ l.createdAt ∧ l.createdAt < me ∧ l.didResist = 0)) := by
    apply List.filter_congr
    intro l hl
    have h2 := h01 l (mem_filteredLogs hl)
    simp only [decide_eq_decide]
    constructor
    · intro hq; exact ⟨hq.1, hq.2.1, by omega⟩
    · intro hq; exact ⟨hq.1, hq.2.1, by omega⟩
  rw [hcong]
  simp [sumVals]

theorem claim_C3_giveInCounts_witness :
    sumVals (giveInCounts (fun t => t) 0 100 (filteredLogs [sampleResist, sampleGiveIn] "Overall")) =
      ((filteredLogs [sampleResist, sampleGiveIn] "Overall").filter
        (fun l => decide ((0 : ℤ) ≤ l.createdAt ∧ l.createdAt < 100 ∧ l.didResist = 0))).length :=
  (claim_C3_giveInCounts (fun t => t) 0 100 [sampleResist, sampleGiveIn] "Overall"
    (by intro l hl; fin_cases hl <;> simp [sampleResist, sampleGiveIn])).1

/-! Calendar grid: shape of the cell list. -/

theorem padCellsAux_mod {κ : Type} (bek : ℕ → κ) :
    ∀ (fuel : ℕ) (cells : List (CalendarCell κ)),
      (7 - cells.length % 7) % 7 ≤ fuel →
      (padCellsAux bek fuel cells).length % 7 = 0 := by
  intro fuel
  induction fuel with
  | zero =>
    intro cells h
    simp only [padCellsAux]
    omega
  | succ fuel ih =>
    intro cells h
    simp only [padCellsAux]
    split
    · assumption
    · apply ih
      simp only [List.length_append, List.length_cons, List.length_nil]
      omega

theorem padCellsAux_filter {κ : Type} (bek : ℕ → κ) (p : CalendarCell κ → Bool)
    (hp : ∀ k, p (blankCell k) = false) :
    ∀ (fuel : ℕ) (cells : List (CalendarCell κ)),
      (padCellsAux bek fuel cells).filter p = cells.filter p := by
  intro fuel
  induction fuel with
  | zero => intro cells; rfl
  | succ fuel ih =>
    intro cells
    simp only [padCellsAux]
    split
    · rfl
    · rw [ih]
      simp [List.filter_append, hp]

/-- Claim C4: the calendar grid cell list always has a length that is a
multiple of 7, and the number of non blank cells, those carrying a numeric
count rather than null, equals the number of days in the displayed month. -/
theorem claim_C4_calendarShape {κ : Type} [DecidableEq κ] (blankKey blankEndKey : ℕ → κ)
    (keyOf : ℤ → κ) (sod : ℤ → ℤ) (dayMs : ℕ → ℤ) (mondayIndex daysInMonth : ℕ)
    (todayStartMs installMs : ℤ) (hasAnyLogs : Bool) (counts : List (κ × ℕ)) :
    (buildCalendar blankKey blankEndKey keyOf sod dayMs mondayIndex daysInMonth
        todayStartMs installMs hasAnyLogs counts).length % 7 = 0
    ∧ ((buildCalendar blankKey blankEndKey keyOf sod dayMs mondayIndex daysInMonth
        todayStartMs installMs hasAnyLogs counts).filter
          (fun c => c.count.isSome)).length = daysInMonth := by
  constructor
  · apply padCellsAux_mod
    omega
  · rw [buildCalendar]
    rw [padCellsAux_filter _ _ (fun k => by simp [blankCell])]
    rw [List.filter_append]
    have hleading : ((List.range mondayIndex).map (fun i => blankCell (blankKey i))).filter
        (fun c => c.count.isSome) = [] := by
      rw [List.filter_map]
      have : ((List.range mondayIndex).filter
          ((fun c : CalendarCell κ => c.count.isSome) ∘ (fun i => blankCell (blankKey i)))) = [] := by
        apply List.filter_eq_nil_iff.mpr
        intro a _
        simp [blankCell]
      rw [this]
      rfl
    have hdays : ((List.range daysInMonth).map
        (fun i => dayCell keyOf sod dayMs todayStartMs installMs hasAnyLogs counts (i + 1))).filter
          (fun c => c.count.isSome) =
        (List.range daysInMonth).map
          (fun i => dayCell keyOf sod dayMs todayStartMs installMs hasAnyLogs counts (i + 1)) := by
      apply List.filter_eq_self.mpr
      intro c hc
      obtain ⟨i, _, rfl⟩ := List.mem_map.mp hc
      simp [dayCell]
    rw [hleading, hdays]
    simp

/-! Calendar grid: the inactive flag of the numbered cells. -/

theorem mem_padCellsAux {κ : Type} (bek : ℕ → κ) :
    ∀ (fuel : ℕ) (cells : List (CalendarCell κ)) (x : CalendarCell κ),
      x ∈ padCellsAux bek fuel cells → x ∈ cells ∨ ∃ n, x = blankCell (bek n) := by
  intro fuel
  induction fuel with
  | zero => intro cells x hx; exact Or.inl hx
  | succ fuel ih =>
    intro cells x hx
    simp only [padCellsAux] at hx
    split at hx
    · exact Or.inl hx
    · rcases ih _ x hx with h | h
      · rcases List.mem_append.mp h with h | h
        · exact Or.inl h
        · right; exact ⟨cells.length, by simpa using h⟩
      · exact Or.inr h

theorem mem_buildCalendar_dayStart {κ : Type} [DecidableEq κ] {bk bek : ℕ → κ}
    {keyOf : ℤ → κ} {sod : ℤ → ℤ} {dayMs : ℕ → ℤ} {mi dim : ℕ}
    {today installMs : ℤ} {hasAny : Bool} {counts : List (κ × ℕ)}
    {c : CalendarCell κ} {ds : ℤ}
    (hc : c ∈ buildCalendar bk bek keyOf sod dayMs mi dim today installMs hasAny counts)
    (hds : c.dayStartMs = some ds) :
    ∃ i : ℕ, i < dim ∧ c = dayCell keyOf sod dayMs today installMs hasAny counts (i + 1) := by
  simp only [buildCalendar] at hc
  rcases mem_padCellsAux bek 7 _ c hc with h | ⟨n, rfl⟩
  · rcases List.mem_append.mp h with h | h
    · obtain ⟨i, _, rfl⟩ := List.mem_map.mp h
      simp [blankCell] at hds
    · obtain ⟨i, hi, rfl⟩ := List.mem_map.mp h
      exact ⟨i, List.mem_range.mp hi, rfl⟩
  · simp [blankCell] at hds

theorem minCreatedAt_foldl (rest : List LogEntry) :
    ∀ a : ℤ, rest.foldl (fun m l => if l.createdAt < m then l.createdAt else m) a =
      (rest.map (fun l => l.createdAt)).foldl min a := by
  induction rest with
  | nil => intro a; rfl
  | cons l t ih =>
    intro a
    simp only [List.foldl_cons, List.map_cons]
    have hstep : (if l.createdAt < a then l.createdAt else a) = min a l.createdAt := by
      rcases le_or_lt a l.createdAt with h | h
      · rw [if_neg (by omega), min_eq_left h]
      · rw [if_pos h, min_eq_right (by omega)]
    rw [hstep, ih]

theorem min?_map_createdAt (l0 : LogEntry) (rest : List LogEntry) :
    ((l0 :: rest).map (fun l => l.createdAt)).min? = some (minCreatedAt l0 rest) := by
  show some ((rest.map (fun l => l.createdAt)).foldl min l0.createdAt) = _
  rw [minCreatedAt, minCreatedAt_foldl]

/-- Claim C5: a numbered calendar cell is marked inactive exactly when its day
start timestamp lies strictly after the start of today or strictly before the
start of day of the earliest record, and when there are no records at all the
cell marked as today is never inactive, today being treated as the install
day. -/
theorem claim_C5_inactive {κ : Type} [DecidableEq κ] (bk bek : ℕ → κ) (keyOf : ℤ → κ)
    (sod : ℤ → ℤ) (dayMs : ℕ → ℤ) (mi dim : ℕ) (today : ℤ)
    (logs : List LogEntry) (counts : List (κ × ℕ))
    (hinj : Function.Injective keyOf) :
    ∀ c ∈ buildCalendar bk bek keyOf sod dayMs mi dim today
        (installDayStartMs sod today logs) (!logs.isEmpty) counts,
      ∀ ds : ℤ, c.dayStartMs = some ds →
        ((logs = [] → c.isToday = true → c.isInactive = false)
        ∧ ∀ mn : ℤ, (logs.map (fun l => l.createdAt)).min? = some mn →
            (c.isInactive = true ↔ today < ds ∨ ds < sod mn)) := by
  intro c hc ds hds
  obtain ⟨i, hi, rfl⟩ := mem_buildCalendar_dayStart hc hds
  have hds2 : sod (dayMs (i + 1)) = ds := by
    simpa [dayCell] using hds
  constructor
  · rintro rfl htoday
    simp only [dayCell, List.isEmpty_nil, Bool.not_true, installDayStartMs] at htoday ⊢
    have hkey : keyOf (sod (dayMs (i + 1))) = keyOf today := by simpa using htoday
    have heq : sod (dayMs (i + 1)) = today := hinj hkey
    simp [heq]
  · intro mn hmn
    match logs with
    | [] => simp at hmn
    | l0 :: rest =>
      have hmn2 : minCreatedAt l0 rest = mn := by
        have := min?_map_createdAt l0 rest
        rw [hmn] at this
        exact (Option.some.injEq _ _).mp this.symm
      simp only [dayCell, List.isEmpty_cons, Bool.not_false, installDayStartMs, hmn2, hds2]
      simp [hds2]

theorem claim_C5_inactive_witness :
    ((dayCell (fun t : ℤ => t) (fun t : ℤ => t) (fun d : ℕ => (d : ℤ)) 0
        (installDayStartMs (fun t : ℤ => t) 0 [sampleResist])
        (!([sampleResist] : List LogEntry).isEmpty) [] 1).isInactive = true ↔
      ((0 : ℤ) < 1 ∨ (1 : ℤ) < (fun t : ℤ => t) 5))
    ∧ (dayCell (fun t : ℤ => t) (fun t : ℤ => t) (fun d : ℕ => (d : ℤ)) 1
        (installDayStartMs (fun t : ℤ => t) 1 [])
        (!([] : List LogEntry).isEmpty) [] 1).isInactive = false := by
  constructor
  · exact ((claim_C5_inactive (fun n : ℕ => -1000 - (n : ℤ)) (fun n : ℕ => -2000 - (n : ℤ))
      (fun t : ℤ => t) (fun t : ℤ => t) (fun d : ℕ => (d : ℤ)) 0 1 0 [sampleResist] []
      (fun a c hac => hac) _ (by decide) 1 rfl).2 5 rfl)
  · exact ((claim_C5_inactive (fun n : ℕ => -1000 - (n : ℤ)) (fun n : ℕ => -2000 - (n : ℤ))
      (fun t : ℤ => t) (fun t : ℤ => t) (fun d : ℕ => (d : ℤ)) 0 1 1 [] []
      (fun a c hac => hac) _ (by decide) 1 rfl).1 rfl (by decide))

/-! Frequency ranking: length, sortedness and tie stability of topN. -/

theorem mapGet_cons_eq {κ : Type} [DecidableEq κ] (k k1 : κ) (v1 : ℕ) (rest : List (κ × ℕ))
    (h : k1 = k) : mapGet ((k1, v1) :: rest) k = some v1 := by
  have hfind : List.find? (fun q => decide (q.1 = k)) ((k1, v1) :: rest) = some (k1, v1) :=
    List.find?_cons_of_pos _ (by simp [h])
  simp [mapGet, hfind]

theorem mapGet_cons_ne {κ : Type} [DecidableEq κ] (k k1 : κ) (v1 : ℕ) (rest : List (κ × ℕ))
    (h : ¬k1 = k) : mapGet ((k1, v1) :: rest) k = mapGet rest k := by
  have hfind : List.find? (fun q => decide (q.1 = k)) ((k1, v1) :: rest) =
      List.find? (fun q => decide (q.1 = k)) rest :=
    List.find?_cons_of_neg _ (by simp [h])
  simp [mapGet, hfind]

theorem bumpCount_cons_eq {κ : Type} [DecidableEq κ] (k k1 : κ) (v1 : ℕ) (rest : List (κ × ℕ))
    (h : k1 = k) : bumpCount ((k1, v1) :: rest) k = (k, v1 + 1) :: rest := by
  subst h
  rw [bumpCount, mapGet_cons_eq k1 k1 v1 rest rfl]
  simp [mapSet]

theorem bumpCount_cons_ne {κ : Type} [DecidableEq κ] (k k1 : κ) (v1 : ℕ) (rest : List (κ × ℕ))
    (h : ¬k1 = k) : bumpCount ((k1, v1) :: rest) k = (k1, v1) :: bumpCount rest k := by
  simp [bumpCount, mapGet_cons_ne k k1 v1 rest h, mapSet, h]

theorem bumpCount_keys {κ : Type} [DecidableEq κ] (k : κ) :
    ∀ m : List (κ × ℕ),
      (bumpCount m k).map (fun p => p.1) =
        if k ∈ m.map (fun p => p.1) then m.map (fun p => p.1)
        else m.map (fun p => p.1) ++ [k] := by
  intro m
  induction m with
  | nil => simp [bumpCount, mapGet, mapSet]
  | cons p rest ih =>
    obtain ⟨k1, v1⟩ := p
    by_cases hk : k1 = k
    · rw [bumpCount_cons_eq k k1 v1 rest hk]
      simp [hk.symm]
    · rw [bumpCount_cons_ne k k1 v1 rest hk]
      simp only [List.map_cons, ih]
      have hne : ¬k = k1 := fun h => hk h.symm
      by_cases hmem : k ∈ rest.map (fun p => p.1)
      · simp [hmem, hne]
      · simp [hmem, hne]

theorem fieldCounts_eq_valsFold (field : LogEntry → Option String) :
    ∀ (logs : List LogEntry) (m : List (String × ℕ)),
      logs.foldl
          (fun m l =>
            let v := trimStr ((field l).getD "")
            if v = "" then m else bumpCount m v) m =
        (qualVals field logs).foldl (fun m v => bumpCount m v) m := by
  intro logs
  induction logs with
  | nil => intro m; rfl
  | cons l rest ih =>
    intro m
    by_cases hv : trimStr ((field l).getD "") = ""
    · have hq : qualVals field (l :: rest) = qualVals field rest := by
        simp only [qualVals, List.map_cons, List.filter_cons]
        rw [if_neg (by simp [hv])]
      rw [hq]
      simp only [List.foldl_cons, hv, if_pos rfl]
      exact ih m
    · have hq : qualVals field (l :: rest) =
          trimStr ((field l).getD "") :: qualVals field rest := by
        simp only [qualVals, List.map_cons, List.filter_cons]
        rw [if_pos (by simp [hv])]
      rw [hq]
      simp only [List.foldl_cons, if_neg hv]
      exact ih (bumpCount m (trimStr ((field l).getD "")))

theorem valsFold_keys :
    ∀ (vals : List String) (m : List (String × ℕ)),
      (vals.foldl (fun m v => bumpCount m v) m).map (fun p => p.1) =
        vals.foldl (fun acc x => if x ∈ acc then acc else acc ++ [x])
          (m.map (fun p => p.1)) := by
  intro vals
  induction vals with
  | nil => intro m; rfl
  | cons v rest ih =>
    intro m
    simp only [List.foldl_cons]
    rw [ih (bumpCount m v), bumpCount_keys]

theorem fieldCounts_keys (field : LogEntry → Option String) (logs : List LogEntry) :
    (fieldCounts field logs).map (fun p => p.1) = firstSeen (qualVals field logs) := by
  rw [fieldCounts, fieldCounts_eq_valsFold, valsFold_keys]
  rfl

theorem firstSeen_aux_mem :
    ∀ (l : List String) (acc : List String) (x : String),
      x ∈ l.foldl (fun acc x => if x ∈ acc then acc else acc ++ [x]) acc ↔
        x ∈ acc ∨ x ∈ l := by
  intro l
  induction l with
  | nil => intro acc x; simp
  | cons y rest ih =>
    intro acc x
    simp only [List.foldl_cons]
    by_cases hy : y ∈ acc
    · rw [if_pos hy, ih]
      constructor
      · rintro (h | h)
        · exact Or.inl h
        · exact Or.inr (List.mem_cons_of_mem _ h)
      · rintro (h | h)
        · exact Or.inl h
        · rcases List.mem_cons.mp h with rfl | h
          · exact Or.inl hy
          · exact Or.inr h
    · rw [if_neg hy, ih]
      constructor
      · rintro (h | h)
        · rcases List.mem_append.mp h with h | h
          · exact Or.inl h
          · simp at h
            exact Or.inr (by simp [h])
        · exact Or.inr (List.mem_cons_of_mem _ h)
      · rintro (h | h)
        · exact Or.inl (List.mem_append.mpr (Or.inl h))
        · rcases List.mem_cons.mp h with rfl | h
          · exact Or.inl (by simp)
          · exact Or.inr h

theorem firstSeen_aux_nodup :
    ∀ (l : List String) (acc : List String), acc.Nodup →
      (l.foldl (fun acc x => if x ∈ acc then acc else acc ++ [x]) acc).Nodup := by
  intro l
  induction l with
  | nil => intro acc h; exact h
  | cons y rest ih =>
    intro acc h
    simp only [List.foldl_cons]
    by_cases hy : y ∈ acc
    · rw [if_pos hy]; exact ih acc h
    · rw [if_neg hy]
      apply ih
      apply List.Nodup.append h (List.nodup_singleton y)
      intro a ha hb
      simp only [List.mem_singleton] at hb
      exact hy (hb ▸ ha)

theorem firstSeen_mem (l : List String) (x : String) : x ∈ firstSeen l ↔ x ∈ l := by
  rw [firstSeen, firstSeen_aux_mem]
  simp

theorem firstSeen_nodup (l : List String) : (firstSeen l).Nodup :=
  firstSeen_aux_nodup l [] List.nodup_nil

theorem firstSeen_length (l : List String) : (firstSeen l).length = l.toFinset.card := by
  have htf : (firstSeen l).toFinset = l.toFinset := by
    apply Finset.ext
    intro x
    simp [List.mem_toFinset, firstSeen_mem]
  rw [← htf, List.toFinset_card_of_nodup (firstSeen_nodup l)]

theorem insertByCountDesc_mem (p : String × ℕ) :
    ∀ (l : List (String × ℕ)) (x : String × ℕ), x ∈ insertByCountDesc p l ↔ x = p ∨ x ∈ l := by
  intro l
  induction l with
  | nil => intro x; simp [insertByCountDesc]
  | cons q rest ih =>
    intro x
    simp only [insertByCountDesc]
    split
    · simp [List.mem_cons]
    · simp only [List.mem_cons, ih]
      tauto

theorem insertByCountDesc_sorted (p : String × ℕ) :
    ∀ l : List (String × ℕ), l.Sorted (fun a q => q.2 ≤ a.2) →
      (insertByCountDesc p l).Sorted (fun a q => q.2 ≤ a.2) := by
  intro l
  induction l with
  | nil => intro _; simp [insertByCountDesc]
  | cons q rest ih =>
    intro h
    rw [List.sorted_cons] at h
    obtain ⟨hq, hrest⟩ := h
    simp only [insertByCountDesc]
    by_cases hlt : q.2 < p.2
    · rw [if_pos hlt, List.sorted_cons]
      constructor
      · intro x hx
        rcases List.mem_cons.mp hx with rfl | hx
        · omega
        · have := hq x hx
          omega
      · rw [List.sorted_cons]
        exact ⟨hq, hrest⟩
    · rw [if_neg hlt, List.sorted_cons]
      constructor
      · intro x hx
        rcases (insertByCountDesc_mem p rest x).mp hx with rfl | hx
        · omega
        · exact hq x hx
      · exact ih hrest

theorem insertByCountDesc_length (p : String × ℕ) :
    ∀ l : List (String × ℕ), (insertByCountDesc p l).length = l.length + 1 := by
  intro l
  induction l with
  | nil => rfl
  | cons q rest ih =>
    simp only [insertByCountDesc]
    split
    · simp
    · simp [ih]

theorem sortAux_length :
    ∀ (m acc : List (String × ℕ)),
      (m.foldl (fun acc p => insertByCountDesc p acc) acc).length = acc.length + m.length := by
  intro m
  induction m with
  | nil => intro acc; simp
  | cons p rest ih =>
    intro acc
    simp only [List.foldl_cons]
    rw [ih, insertByCountDesc_length]
    simp only [List.length_cons]
    omega

theorem sortAux_sorted :
    ∀ (m acc : List (String × ℕ)), acc.Sorted (fun a q => q.2 ≤ a.2) →
      (m.foldl (fun acc p => insertByCountDesc p acc) acc).Sorted (fun a q => q.2 ≤ a.2) := by
  intro m
  induction m with
  | nil => intro acc h; exact h
  | cons p rest ih =>
    intro acc h
    simp only [List.foldl_cons]
    exact ih _ (insertByCountDesc_sorted p acc h)

theorem sortByCountDesc_length (m : List (String × ℕ)) :
    (sortByCountDesc m).length = m.length := by
  rw [sortByCountDesc, sortAux_length]
  simp

theorem sortByCountDesc_sorted (m : List (String × ℕ)) :
    (sortByCountDesc m).Sorted (fun a q => q.2 ≤ a.2) :=
  sortAux_sorted m [] (by simp)

theorem insertByCountDesc_filter (p : String × ℕ) (c : ℕ) :
    ∀ l : List (String × ℕ), l.Sorted (fun a q => q.2 ≤ a.2) →
      (insertByCountDesc p l).filter (fun q => decide (q.2 = c)) =
        l.filter (fun q => decide (q.2 = c)) ++ (if p.2 = c then [p] else []) := by
  intro l
  induction l with
  | nil =>
    intro _
    by_cases hp : p.2 = c <;> simp [insertByCountDesc, List.filter_cons, hp]
  | cons q rest ih =>
    intro h
    rw [List.sorted_cons] at h
    obtain ⟨hq, hrest⟩ := h
    simp only [insertByCountDesc]
    by_cases hlt : q.2 < p.2
    · rw [if_pos hlt]
      by_cases hp : p.2 = c
      · have hnil : (q :: rest).filter (fun r => decide (r.2 = c)) = [] := by
          apply List.filter_eq_nil_iff.mpr
          intro a ha
          rcases List.mem_cons.mp ha with rfl | ha
          · simp
            omega
          · have := hq a ha
            simp
            omega
        rw [List.filter_cons, if_pos (by simp [hp]), hnil]
        simp [hp]
      · rw [List.filter_cons, if_neg (by simp [hp])]
        simp [hp]
    · rw [if_neg hlt]
      rw [List.filter_cons, List.filter_cons]
      by_cases hqc : q.2 = c <;> simp [hqc, ih hrest]

theorem sortAux_filter (c : ℕ) :
    ∀ (m acc : List (String × ℕ)), acc.Sorted (fun a q => q.2 ≤ a.2) →
      (m.foldl (fun acc p => insertByCountDesc p acc) acc).filter (fun q => decide (q.2 = c)) =
        acc.filter (fun q => decide (q.2 = c)) ++ m.filter (fun q => decide (q.2 = c)) := by
  intro m
  induction m with
  | nil => intro acc _; simp
  | cons p rest ih =>
    intro acc h
    simp only [List.foldl_cons]
    rw [ih _ (insertByCountDesc_sorted p acc h), insertByCountDesc_filter p c acc h]
    rw [List.filter_cons]
    by_cases hp : p.2 = c <;> simp [hp]

theorem sortByCountDesc_filter (m : List (String × ℕ)) (c : ℕ) :
    (sortByCountDesc m).filter (fun q => decide (q.2 = c)) =
      m.filter (fun q => decide (q.2 = c)) := by
  rw [sortByCountDesc, sortAux_filter c m [] (by simp)]
  simp

/-- Claim C6: the top frequency ranking over any record list returns a
sequence of length the minimum of 3, the slice bound of every call site, and
the number of distinct trimmed nonempty field values, with counts non
increasing; it is a total function and returns the empty sequence when no
qualifying values exist. -/
theorem claim_C6_topN (field : LogEntry → Option String) (logs : List LogEntry) :
    (topN (fieldCounts field logs)).length = min 3 (qualVals field logs).toFinset.card
    ∧ ((topN (fieldCounts field logs)).map (fun p => p.2)).Sorted (fun a q => q ≤ a)
    ∧ (qualVals field logs = [] → topN (fieldCounts field logs) = []) := by
  have hlen : (fieldCounts field logs).length = (qualVals field logs).toFinset.card := by
    have h1 : ((fieldCounts field logs).map (fun p => p.1)).length =
        (firstSeen (qualVals field logs)).length := by
      rw [fieldCounts_keys]
    rw [List.length_map] at h1
    rw [h1, firstSeen_length]
  refine ⟨?_, ?_, ?_⟩
  · rw [topN, List.length_take, sortByCountDesc_length, hlen]
  · have hs := sortByCountDesc_sorted (fieldCounts field logs)
    rw [topN, List.map_take]
    apply List.Pairwise.sublist (List.take_sublist _ _)
    exact List.Pairwise.map _ (fun a q h => h) hs
  · intro h
    have hempty : fieldCounts field logs = [] := by
      rw [fieldCounts, fieldCounts_eq_valsFold, h]
      rfl
    rw [topN, hempty]
    rfl

theorem claim_C6_topN_witness : topN (fieldCounts (fun l => l.cueName) []) = [] :=
  (claim_C6_topN (fun l => l.cueName) []).2.2 rfl

/-- Claim C7: ties in the ranking keep first encountered order: the count map
lists its keys in the order the distinct trimmed values were first met while
scanning the records, and the descending sort leaves the relative order of
entries with any equal count unchanged, so the ranking is fully determined by
the input record ordering rather than alphabetically. -/
theorem claim_C7_tieOrder (field : LogEntry → Option String) (logs : List LogEntry) (c : ℕ) :
    (fieldCounts field logs).map (fun p => p.1) = firstSeen (qualVals field logs)
    ∧ (sortByCountDesc (fieldCounts field logs)).filter (fun q => decide (q.2 = c)) =
        (fieldCounts field logs).filter (fun q => decide (q.2 = c)) :=
  ⟨fieldCounts_keys field logs, sortByCountDesc_filter (fieldCounts field logs) c⟩

/-! Habit filtering: the two filter variants. -/

/-- Claim C8 as stated fails on the HomeScreen variant: this record matches the
filter after trimming its habit name, yet the HomeScreen filter, which compares
the habit name verbatim, does not return it. -/
theorem claim_C8_habitFilter_cex :
    trimStr samplePadded.habitName = "A"
    ∧ samplePadded ∉ logsForStats [samplePadded] (some "A") := by
  decide

/-- Claim C8 amended: both filter variants return the input unchanged on their
all habits sentinel; for a specific name the AnalyticsScreen filter returns
exactly the records whose trimmed habitName equals the filter, in original
relative order, while the HomeScreen filter compares the habitName verbatim,
without trimming. Exactness is stated as: the result is a sublist of the
input, every returned record matches, and the length equals the number of
matching records. -/
theorem claim_C8_habitFilter (logs : List LogEntry) (t : String) (hname : String) :
    filteredLogs logs "Overall" = logs
    ∧ logsForStats logs none = logs
    ∧ (t ≠ "Overall" →
        ((filteredLogs logs t).Sublist logs
        ∧ (∀ l ∈ filteredLogs logs t, trimStr l.habitName = t)
        ∧ (filteredLogs logs t).length =
            logs.countP (fun l => decide (trimStr l.habitName = t))))
    ∧ ((logsForStats logs (some hname)).Sublist logs
        ∧ (∀ l ∈ logsForStats logs (some hname), l.habitName = hname)
        ∧ (logsForStats logs (some hname)).length =
            logs.countP (fun l => decide (l.habitName = hname))) := by
  refine ⟨by simp [filteredLogs], rfl, ?_, ?_⟩
  · intro ht
    rw [filteredLogs, if_neg ht]
    refine ⟨List.filter_sublist _, ?_, ?_⟩
    · intro l hl
      simpa using (List.mem_filter.mp hl).2
    · rw [List.countP_eq_length_filter]
  · rw [logsForStats]
    refine ⟨List.filter_sublist _, ?_, ?_⟩
    · intro l hl
      simpa using (List.mem_filter.mp hl).2
    · rw [List.countP_eq_length_filter]

theorem claim_C8_habitFilter_witness :
    ("A" : String) ≠ "Overall"
    ∧ (filteredLogs [sampleResist, samplePadded] "A").length =
        ([sampleResist, samplePadded] : List LogEntry).countP
          (fun l => decide (trimStr l.habitName = "A")) :=
  ⟨by decide,
    ((claim_C8_habitFilter [sampleResist, samplePadded] "A" "A").2.2.1 (by decide)).2.2⟩

/-! Best streak versus current streak: the relation between the two. -/

theorem sortedNodupEq (l1 l2 : List ℤ) (h1 : l1.Sorted (· ≤ ·)) (h2 : l2.Sorted (· ≤ ·))
    (n1 : l1.Nodup) (n2 : l2.Nodup) (hmem : ∀ x, x ∈ l1 ↔ x ∈ l2) : l1 = l2 :=
  List.eq_of_perm_of_sorted ((List.perm_ext_iff_of_nodup n1 n2).mpr hmem) h1 h2

theorem sort_image_strictMono (S : Finset ℤ) (f : ℤ → ℤ) (hf : StrictMono f) :
    (S.image f).sort (· ≤ ·) = (S.sort (· ≤ ·)).map f := by
  apply sortedNodupEq
  · exact Finset.sort_sorted _ _
  · exact List.Pairwise.map _ (fun a q h => hf.monotone h) (Finset.sort_sorted _ S)
  · exact Finset.sort_nodup _ _
  · exact List.Nodup.map hf.injective (Finset.sort_nodup _ S)
  · intro x
    simp [Finset.mem_sort, Finset.mem_image, List.mem_map]

theorem ascRun_mem : ∀ (n : ℕ) (a x : ℤ), x ∈ ascRun a n ↔ a ≤ x ∧ x < a + n := by
  intro n
  induction n with
  | zero => intro a x; simp [ascRun]
  | succ n ih =>
    intro a x
    simp only [ascRun, List.mem_cons, ih]
    push_cast
    omega

theorem ascRun_length : ∀ (n : ℕ) (a : ℤ), (ascRun a n).length = n := by
  intro n
  induction n with
  | zero => intro a; rfl
  | succ n ih => intro a; simp [ascRun, ih]

theorem ascRun_sorted : ∀ (n : ℕ) (a : ℤ), (ascRun a n).Sorted (· ≤ ·) := by
  intro n
  induction n with
  | zero => intro a; simp [ascRun]
  | succ n ih =>
    intro a
    rw [ascRun, List.sorted_cons]
    constructor
    · intro x hx
      have := (ascRun_mem n (a + 1) x).mp hx
      omega
    · exact ih (a + 1)

theorem ascRun_nodup : ∀ (n : ℕ) (a : ℤ), (ascRun a n).Nodup := by
  intro n
  induction n with
  | zero => intro a; simp [ascRun]
  | succ n ih =>
    intro a
    rw [ascRun, List.nodup_cons]
    constructor
    · intro hx
      have := (ascRun_mem n (a + 1) a).mp hx
      omega
    · exact ih (a + 1)

theorem sorted_filter_interval_prefix (lo hi : ℤ) :
    ∀ t : List ℤ, t.Sorted (· ≤ ·) → (∀ y ∈ t, lo ≤ y) →
      ∃ v, t = t.filter (fun x => decide (lo ≤ x ∧ x ≤ hi)) ++ v := by
  intro t
  induction t with
  | nil => intro _ _; exact ⟨[], rfl⟩
  | cons y s ih =>
    intro hsort hlo
    rw [List.sorted_cons] at hsort
    obtain ⟨hy, hs⟩ := hsort
    by_cases hhi : y ≤ hi
    · have hpred : (fun x => decide (lo ≤ x ∧ x ≤ hi)) y = true := by
        simp [hlo y (by simp), hhi]
      obtain ⟨v, hv⟩ := ih hs (fun z hz => le_trans (hlo y (by simp)) (hy z hz))
      refine ⟨v, ?_⟩
      rw [List.filter_cons, if_pos hpred]
      rw [List.cons_append, ← hv]
    · have hnil : (y :: s).filter (fun x => decide (lo ≤ x ∧ x ≤ hi)) = [] := by
        apply List.filter_eq_nil_iff.mpr
        intro z hz
        rcases List.mem_cons.mp hz with rfl | hz
        · simp
          omega
        · have := hy z hz
          simp
          omega
      exact ⟨y :: s, by rw [hnil]; rfl⟩

theorem sorted_filter_interval_infix (lo hi : ℤ) :
    ∀ l : List ℤ, l.Sorted (· ≤ ·) →
      ∃ u v, l = u ++ l.filter (fun x => decide (lo ≤ x ∧ x ≤ hi)) ++ v := by
  intro l
  induction l with
  | nil => intro _; exact ⟨[], [], rfl⟩
  | cons x t ih =>
    intro hsort
    have hsort2 := hsort
    rw [List.sorted_cons] at hsort2
    obtain ⟨hx, ht⟩ := hsort2
    by_cases h1 : lo ≤ x
    · obtain ⟨v, hv⟩ := sorted_filter_interval_prefix lo hi (x :: t) hsort
        (by
          intro y hy
          rcases List.mem_cons.mp hy with rfl | hy
          · exact h1
          · exact le_trans h1 (hx y hy))
      exact ⟨[], v, by simpa using hv⟩
    · have hpred : (fun z => decide (lo ≤ z ∧ z ≤ hi)) x = false := by
        simp
        omega
      obtain ⟨u, v, huv⟩ := ih ht
      refine ⟨x :: u, v, ?_⟩
      rw [List.filter_cons, if_neg (by simp [hpred])]
      rw [List.cons_append, List.cons_append, ← huv]

theorem filter_interval_eq_ascRun (S : Finset ℤ) (today : ℤ) (c : ℕ) (_hc : 1 ≤ c)
    (hmem : ∀ k : ℕ, k < c → today - k ∈ S) :
    (S.sort (· ≤ ·)).filter (fun x => decide (today + 1 - c ≤ x ∧ x ≤ today)) =
      ascRun (today + 1 - c) c := by
  apply sortedNodupEq
  · exact List.Pairwise.sublist (List.filter_sublist _) (Finset.sort_sorted _ _)
  · exact ascRun_sorted c _
  · exact List.Nodup.sublist (List.filter_sublist _) (Finset.sort_nodup _ _)
  · exact ascRun_nodup c _
  · intro x
    rw [List.mem_filter, ascRun_mem]
    simp only [Finset.mem_sort, decide_eq_true_eq]
    constructor
    · rintro ⟨hxS, hlo, hhi⟩
      exact ⟨hlo, by omega⟩
    · rintro ⟨hlo, hhi⟩
      refine ⟨?_, hlo, by omega⟩
      have hk : ((today - x).toNat : ℤ) = today - x := by omega
      have hklt : (today - x).toNat < c := by omega
      have hin := hmem (today - x).toNat hklt
      rw [hk] at hin
      have h2 : today - (today - x) = x := by ring
      rw [h2] at hin
      exact hin

theorem contRun_ascRun_map (midnight : ℤ → ℤ)
    (hfix : ∀ d : ℤ, midnight (d + 1) = midnight d + 86400000) :
    ∀ (n : ℕ) (a : ℤ) (v : List ℤ),
      n ≤ contRun (midnight a) ((ascRun (a + 1) n).map midnight ++ v) := by
  intro n
  induction n with
  | zero => intro a v; exact Nat.zero_le _
  | succ n ih =>
    intro a v
    simp only [ascRun, List.map_cons, List.cons_append, contRun]
    rw [if_pos (by rw [hfix a]; ring)]
    have hnext := ih (a + 1) v
    simp only [List.append_eq] at hnext ⊢
    omega

theorem bestSpec_append_le : ∀ (u m : List ℤ), bestSpec m ≤ bestSpec (u ++ m) := by
  intro u
  induction u with
  | nil => intro m; simp
  | cons x t ih =>
    intro m
    rw [List.cons_append]
    calc bestSpec m ≤ bestSpec (t ++ m) := ih m
      _ ≤ max (1 + contRun x (t ++ m)) (bestSpec (t ++ m)) := le_max_right _ _
      _ = bestSpec (x :: (t ++ m)) := rfl

theorem bestSpec_run_le (midnight : ℤ → ℤ)
    (hfix : ∀ d : ℤ, midnight (d + 1) = midnight d + 86400000)
    (a : ℤ) (n : ℕ) (v : List ℤ) :
    n + 1 ≤ bestSpec ((ascRun a (n + 1)).map midnight ++ v) := by
  simp only [ascRun, List.map_cons, List.cons_append, bestSpec]
  have h := contRun_ascRun_map midnight hfix n a v
  have h2 := le_max_left (1 + contRun (midnight a) ((ascRun (a + 1) n).map midnight ++ v))
    (bestSpec ((ascRun (a + 1) n).map midnight ++ v))
  simp only [List.append_eq] at h h2 ⊢
  omega

theorem currentStreak_le_bestStreak (S : Finset ℤ) (today : ℤ) (midnight : ℤ → ℤ)
    (hfix : ∀ d : ℤ, midnight (d + 1) = midnight d + 86400000) :
    currentStreak S today ≤ bestStreak ((S.image midnight).sort (· ≤ ·)) := by
  have hmono : StrictMono midnight :=
    strictMono_int_of_lt_succ (fun d => by rw [hfix d]; omega)
  rw [bestStreak_eq_bestSpec, sort_image_strictMono S midnight hmono]
  obtain ⟨n, hmem, hstop⟩ := exists_stop S today
  have hcn : currentStreak S today = n := currentStreak_eq S today hmem hstop
  rw [hcn]
  rcases Nat.eq_zero_or_pos n with rfl | hpos
  · exact Nat.zero_le _
  · have hfilter := filter_interval_eq_ascRun S today n hpos hmem
    obtain ⟨u, v, huv⟩ := sorted_filter_interval_infix (today + 1 - n) today
      (S.sort (· ≤ ·)) (Finset.sort_sorted _ _)
    rw [hfilter] at huv
    rw [huv, List.map_append, List.map_append]
    obtain ⟨m, rfl⟩ : ∃ m, n = m + 1 := ⟨n - 1, by omega⟩
    calc m + 1 ≤ bestSpec ((ascRun (today + 1 - (m + 1 : ℕ)) (m + 1)).map midnight
            ++ v.map midnight) := bestSpec_run_le midnight hfix _ m _
      _ ≤ bestSpec (u.map midnight ++ ((ascRun (today + 1 - (m + 1 : ℕ)) (m + 1)).map midnight
            ++ v.map midnight)) := bestSpec_append_le _ _
      _ = bestSpec (u.map midnight ++ (ascRun (today + 1 - (m + 1 : ℕ)) (m + 1)).map midnight
            ++ v.map midnight) := by rw [List.append_assoc]

/-- Claim C9 as stated fails on the code: under a civil time conversion with a
daylight saving transition, where the local midnights of two consecutive
calendar days are not 86400000 ms apart, the best streak scan breaks the run
while the current streak walk, which works on calendar days, does not, so the
best streak comes out strictly below the current streak on the same qualifying
day set. -/
theorem claim_C9_cex :
    bestStreak (resistDates (fun t => t) dstMidnight [sampleDay0, sampleDay1, sampleDay2]) <
      currentStreak (resistDaysOf (fun t => t) [sampleDay0, sampleDay1, sampleDay2]) 2 := by
  have h1 : (resistDaysOf (fun t => t) [sampleDay0, sampleDay1, sampleDay2]).image dstMidnight =
      ([0, 86400000, 169200000] : List ℤ).toFinset := by decide
  have h2 : Finset.sort (· ≤ ·) (([0, 86400000, 169200000] : List ℤ).toFinset) =
      [0, 86400000, 169200000] :=
    (List.toFinset_sort (· ≤ ·) (by decide)).mpr (by decide)
  rw [resistDates, h1, h2]
  decide

/-- Claim C9 amended: when every pair of consecutive local midnights is
exactly 86400000 ms apart, as holds in a fixed offset timezone, the best
streak computed from the qualifying day set is at least the current streak
computed from the same set. -/
theorem claim_C9_best_ge_current (dayOf midnight : ℤ → ℤ) (logs : List LogEntry) (today : ℤ)
    (hfix : ∀ d : ℤ, midnight (d + 1) = midnight d + 86400000) :
    currentStreak (resistDaysOf dayOf logs) today ≤
      bestStreak (resistDates dayOf midnight logs) :=
  currentStreak_le_bestStreak (resistDaysOf dayOf logs) today midnight hfix

theorem claim_C9_best_ge_current_witness :
    (∀ d : ℤ, fixedMidnight (d + 1) = fixedMidnight d + 86400000)
    ∧ currentStreak (resistDaysOf (fun t => t) [sampleDay0, sampleDay1, sampleDay2]) 2 ≤
        bestStreak (resistDates (fun t => t) fixedMidnight [sampleDay0, sampleDay1, sampleDay2]) :=
  ⟨fun d => by unfold fixedMidnight; ring,
    claim_C9_best_ge_current (fun t => t) fixedMidnight [sampleDay0, sampleDay1, sampleDay2] 2
      (fun d => by unfold fixedMidnight; ring)⟩
